import Mathlib

/-!
Verification of `scripts/increment_build.py`.

The script reads the text of `src/version.h`, searches for the first
occurrence of the regular expression

  `(static\s+constexpr\s+uint16_t\s+BUILD\s*=\s*)(\d+)(\s*;)`

parses the digits of group 2 as a base-10 integer `old`, and rewrites the
file replacing the first match by `group(1) + str(old + 1) + group(3)`
(`re.sub` with `count=1`).  Before writing it stores the original text at
`src/version.h.bak`, and it commits the new text through a temporary file
`src/version.h.tmp` that is atomically renamed onto the original path.
If the file or the pattern is missing it prints a warning and returns.

Shallow embedding notes:

* Text is modelled as `List Char`.  The character classes `\s` and `\d`
  are modelled by their ASCII meaning (` `, TAB, LF, CR, VT, FF for `\s`
  and `0`..`9` for `\d`); no claim depends on non-ASCII characters.
* In this pattern every greedy piece (`\s+`, `\s*`, `\d+`) is followed by
  a token whose first character lies outside the repeated class, so the
  backtracking regex engine behaves exactly like deterministic maximal
  munch; the matcher below is therefore faithful to `re` semantics, and
  `re.search` / `re.sub` both use the leftmost such match.
* The filesystem is modelled by the contents of the three paths the
  script touches; the printed lines are returned alongside the new state.
  On the success path the temporary file does not survive the rename, so
  its slot is `none` afterwards.
-/

/-- Python `\s` on the ASCII range: space, TAB, LF, VT, FF, CR. -/
def isPySpace (c : Char) : Bool :=
  c = ' ' || c = '\t' || c = '\n' || c = '\r' || c = '\x0b' || c = '\x0c'

/-- Python `\d` on the ASCII range: the decimal digits. -/
def isDig (c : Char) : Bool :=
  '0' ≤ c && c ≤ '9'

/-- The literal token `static` of the pattern. -/
def kStatic : List Char := ['s', 't', 'a', 't', 'i', 'c']

/-- The literal token `constexpr` of the pattern. -/
def kConstexpr : List Char := ['c', 'o', 'n', 's', 't', 'e', 'x', 'p', 'r']

/-- The literal token `uint16_t` of the pattern. -/
def kUint16 : List Char := ['u', 'i', 'n', 't', '1', '6', '_', 't']

/-- The literal token `BUILD` of the pattern. -/
def kBuild : List Char := ['B', 'U', 'I', 'L', 'D']

/-- The literal `=` of the pattern. -/
def kEq : List Char := ['=']

/-- The literal `;` of the pattern. -/
def kSemi : List Char := [';']

/-- Match a literal token at the head of the input, returning the rest. -/
def matchLit : List Char → List Char → Option (List Char)
  | [], s => some s
  | _ :: _, [] => none
  | l :: ls, c :: cs => if c = l then matchLit ls cs else none

/-- Maximal munch of one-or-more characters satisfying `p` (the `\s+` and
`\d+` pieces of the pattern): the consumed run and the rest. -/
def munch1 (p : Char → Bool) : List Char → Option (List Char × List Char)
  | [] => none
  | c :: cs => if p c then some (c :: cs.takeWhile p, cs.dropWhile p) else none

/-- The three groups of one match of the pattern: group 1 is the
declaration part up to and including `=` and the whitespace after it,
group 2 the digits, group 3 the whitespace before `;` plus the `;`. -/
structure MatchRes where
  g1 : List Char
  ds : List Char
  g3 : List Char
deriving DecidableEq, Repr

/-- Try to match the pattern at the head of `s`; on success return the
three groups and the text after the match.  Mirrors one anchored attempt
of the regex engine at one position. -/
def patternMatchAt (s : List Char) : Option (MatchRes × List Char) :=
  (matchLit kStatic s).bind fun r1 =>
  (munch1 isPySpace r1).bind fun w1r2 =>
  (matchLit kConstexpr w1r2.2).bind fun r3 =>
  (munch1 isPySpace r3).bind fun w2r4 =>
  (matchLit kUint16 w2r4.2).bind fun r5 =>
  (munch1 isPySpace r5).bind fun w3r6 =>
  (matchLit kBuild w3r6.2).bind fun r7 =>
  (matchLit kEq (r7.dropWhile isPySpace)).bind fun r9 =>
  (munch1 isDig (r9.dropWhile isPySpace)).bind fun dsr11 =>
  (matchLit kSemi (dsr11.2.dropWhile isPySpace)).bind fun r13 =>
  some (⟨kStatic ++ w1r2.1 ++ kConstexpr ++ w2r4.1 ++ kUint16 ++ w3r6.1 ++
          kBuild ++ r7.takeWhile isPySpace ++ kEq ++ r9.takeWhile isPySpace,
        dsr11.1,
        dsr11.2.takeWhile isPySpace ++ kSemi⟩, r13)

/-- Leftmost search of the pattern (`re.search`): the first position, in
document order, where an anchored match succeeds.  Returns the text before
the match, the groups, and the text after the match. -/
def patternSearch : List Char → Option (List Char × MatchRes × List Char)
  | [] => none
  | c :: cs =>
    match patternMatchAt (c :: cs) with
    | some (m, r) => some ([], m, r)
    | none =>
      match patternSearch cs with
      | some (pre, m, r) => some (c :: pre, m, r)
      | none => none

/-- The substitution `pattern.sub(repl, text, count=1)`: replace the first
match of the pattern by `repl` applied to its groups; if there is no match
the text is returned unchanged. -/
def patternSubFirst (repl : MatchRes → List Char) (text : List Char) : List Char :=
  match patternSearch text with
  | none => text
  | some (pre, m, post) => pre ++ repl m ++ post

/-- Map a digit value below ten to its character. -/
def digitChar : Nat → Char
  | 0 => '0'
  | 1 => '1'
  | 2 => '2'
  | 3 => '3'
  | 4 => '4'
  | 5 => '5'
  | 6 => '6'
  | 7 => '7'
  | 8 => '8'
  | _ => '9'

/-- Fuel-driven worker for the decimal representation. -/
def toDecimalAux : Nat → Nat → List Char → List Char
  | 0, _, acc => acc
  | fuel + 1, n, acc =>
    if n < 10 then digitChar n :: acc
    else toDecimalAux fuel (n / 10) (digitChar (n % 10) :: acc)

/-- Decimal representation of a natural number, as produced by Python
`str` on a non-negative `int`. -/
def toDecimal (n : Nat) : List Char := toDecimalAux (n + 1) n []

/-- Value of a digit string in base 10, as computed by Python `int` on a
string of decimal digits (leading zeros allowed). -/
def digitsToNat (ds : List Char) : Nat :=
  ds.foldl (fun a c => 10 * a + (c.toNat - 48)) 0

/-- Path of the version file (`VERSION_H` in the script). -/
def VERSION_H : List Char := "src/version.h".toList

/-- Suffix of the backup path (`BACKUP_SUFFIX` in the script). -/
def BACKUP_SUFFIX : List Char := ".bak".toList

/-- Path of the backup file: `VERSION_H.with_name(VERSION_H.name + BACKUP_SUFFIX)`,
which appends the suffix to the file name in the same directory. -/
def backupPath : List Char := VERSION_H ++ BACKUP_SUFFIX

/-- Path of the temporary file used for the atomic commit:
`VERSION_H.with_suffix(VERSION_H.suffix + ".tmp")`. -/
def tmpPath : List Char := VERSION_H ++ ".tmp".toList

/-- Contents of the three paths the script touches: `src/version.h`, the
backup `src/version.h.bak`, and the transient `src/version.h.tmp`.
`none` means the path does not exist. -/
structure FS where
  versionFile : Option (List Char)
  backupFile : Option (List Char)
  tmpFile : Option (List Char)
deriving DecidableEq, Repr

/-- Warning printed when `src/version.h` does not exist. -/
def warnMissingFile : List Char :=
  "[increment_build] warning: src/version.h not found, skipping build increment".toList

/-- Warning printed when the BUILD pattern is not found in the file. -/
def warnNoPattern : List Char :=
  "[increment_build] warning: BUILD pattern not found in src/version.h, skipping".toList

/-- Success message reporting the old and new BUILD values. -/
def reportMsg (old new : Nat) : List Char :=
  "[increment_build] updated BUILD: ".toList ++ toDecimal old ++
    " -> ".toList ++ toDecimal new ++ " (src/version.h)".toList

/-- The part of the run after the existence check, on the text read from
the version file: find the first match, increment its value, back up the
original text, and atomically replace the file with the substituted text
(the temporary file is consumed by the rename, so its slot ends `none`). -/
def runOnText (fs : FS) (text : List Char) : FS × List (List Char) :=
  match patternSearch text with
  | none => (fs, [warnNoPattern])
  | some (_, m, _) =>
    let old := digitsToNat m.ds
    let new := old + 1
    let newText := patternSubFirst (fun mm => mm.g1 ++ toDecimal new ++ mm.g3) text
    ({ versionFile := some newText, backupFile := some text, tmpFile := none },
     [reportMsg old new])

/-- The whole run of `increment_build()`: warn and skip when the version
file does not exist, otherwise read its text and run on it.  Returns the
new filesystem state and the list of printed lines. -/
def increment_build (fs : FS) : FS × List (List Char) :=
  match fs.versionFile with
  | none => (fs, [warnMissingFile])
  | some text => runOnText fs text

/-- A run of whitespace characters. -/
def WsRun (w : List Char) : Prop := ∀ c ∈ w, isPySpace c = true

/-- Wellformed group 2: a nonempty string of digits. -/
def WfD (d : List Char) : Prop := d ≠ [] ∧ ∀ c ∈ d, isDig c = true

/-- Wellformed group 3: optional whitespace followed by `;`. -/
def Wf3 (g : List Char) : Prop := ∃ w, WsRun w ∧ g = w ++ kSemi

/-- Wellformed group 1: the token sequence `static`, `constexpr`,
`uint16_t`, `BUILD`, `=`, with at least one whitespace character between
the first four tokens and optional whitespace around `=`. -/
def Wf1 (g : List Char) : Prop :=
  ∃ w1 w2 w3 w4 w5, WsRun w1 ∧ WsRun w2 ∧ WsRun w3 ∧ WsRun w4 ∧ WsRun w5 ∧
    w1 ≠ [] ∧ w2 ≠ [] ∧ w3 ≠ [] ∧
    g = kStatic ++ w1 ++ kConstexpr ++ w2 ++ kUint16 ++ w3 ++ kBuild ++ w4 ++ kEq ++ w5

/-- The head of a list, if any, fails the test `p`. -/
def HeadNot (p : Char → Bool) (l : List Char) : Prop :=
  ∀ x, l.head? = some x → p x = false

/-- Relation between adjacent characters of a wellformed group 1: a digit
can only be preceded by `t` or `1` (the digits of `uint16_t`). -/
def goodPair (c d : Char) : Prop := isDig d = true → c = 't' ∨ c = '1'


/-- Concrete version-file text with BUILD value 41, from the spec. -/
def t41 : List Char := "static constexpr uint16_t BUILD = 41;\n".toList

/-- Concrete version-file text with BUILD value 42. -/
def t42 : List Char := "static constexpr uint16_t BUILD = 42;\n".toList

/-- Group 1 of the match in `t41`. -/
def g1c : List Char := "static constexpr uint16_t BUILD = ".toList

/-- The groups of the first match of `t41`. -/
def m41 : MatchRes := ⟨g1c, ['4', '1'], kSemi⟩

/-- Filesystem state holding `t41` and nothing else. -/
def fs41 : FS := ⟨some t41, none, none⟩

/-- Concrete text with two lines matching the pattern. -/
def t2m : List Char :=
  "static constexpr uint16_t BUILD = 1;\nstatic constexpr uint16_t BUILD = 2;\n".toList

/-- The groups of the first match of `t2m`. -/
def m2a : MatchRes := ⟨g1c, ['1'], kSemi⟩

/-- Text after the first match of `t2m`: the whole second line. -/
def post2m : List Char := "\nstatic constexpr uint16_t BUILD = 2;\n".toList

/-- The groups of the second match of `t2m`. -/
def m2b : MatchRes := ⟨g1c, ['2'], kSemi⟩

/-- Concrete version-file text with BUILD value 65535, the top of the
16-bit range. -/
def t65535 : List Char := "static constexpr uint16_t BUILD = 65535;\n".toList

/-- The groups of the match of `t65535`. -/
def m65535 : MatchRes := ⟨g1c, ['6', '5', '5', '3', '5'], kSemi⟩

/-- Concrete version-file text whose BUILD value has leading zeros. -/
def t007 : List Char := "static constexpr uint16_t BUILD = 007;\n".toList

/-- Result of one run on `t007`: the three-character digit span `007` is
replaced by the single character `8`. -/
def t8 : List Char := "static constexpr uint16_t BUILD = 8;\n".toList

/-- A declaration with a different storage class: not matched. -/
def tConst : List Char := "const uint16_t BUILD = 5;\n".toList

/-- A macro-style BUILD definition: not matched. -/
def tDefine : List Char := "#define BUILD 5\n".toList

/-- Text without any BUILD declaration. -/
def tHello : List Char := "hello".toList

-- ## Basic helper lemmas

theorem matchLit_sound : ∀ (l s r : List Char), matchLit l s = some r → s = l ++ r
  | [], s, r, h => by simp only [matchLit] at h; simp [Option.some.inj h]
  | _ :: _, [], _, h => by simp [matchLit] at h
  | l :: ls, c :: cs, r, h => by
    by_cases hc : c = l
    · subst hc
      simp only [matchLit, if_pos rfl] at h
      simpa using matchLit_sound ls cs r h
    · simp [matchLit, hc] at h

theorem matchLit_self : ∀ (l s : List Char), matchLit l (l ++ s) = some s
  | [], s => rfl
  | c :: ls, s => by simp [matchLit, matchLit_self ls s]

theorem headNot_nil (p : Char → Bool) : HeadNot p [] := fun x h => by simp at h

theorem headNot_cons {p : Char → Bool} {c : Char} (l : List Char) (h : p c = false) :
    HeadNot p (c :: l) := by
  intro x hx
  simp only [List.head?] at hx
  cases hx
  exact h

theorem tw_mem {p : Char → Bool} : ∀ {l : List Char} {x : Char},
    x ∈ l.takeWhile p → p x = true := by
  intro l x h
  exact List.mem_takeWhile_imp h

theorem dw_head (p : Char → Bool) : ∀ l : List Char, HeadNot p (l.dropWhile p)
  | [] => headNot_nil p
  | c :: cs => by
    by_cases hc : p c
    · simpa [List.dropWhile, hc] using dw_head p cs
    · have hc' : p c = false := by simpa using hc
      intro x hx
      rw [List.dropWhile_cons_of_neg (by simp [hc'])] at hx
      simp only [List.head?] at hx
      cases hx
      exact hc'

theorem tw_exact {p : Char → Bool} :
    ∀ {t : List Char}, ∀ r : List Char, (∀ x ∈ t, p x = true) → HeadNot p r →
      (t ++ r).takeWhile p = t := by
  intro t
  induction t with
  | nil =>
    intro r _ hr
    cases hh : r with
    | nil => rfl
    | cons c cs =>
      have := hr c (by rw [hh]; rfl)
      simp [List.takeWhile, this]
  | cons a t ih =>
    intro r ht hr
    have ha : p a = true := ht a (by simp)
    rw [List.cons_append, List.takeWhile_cons_of_pos ha,
        ih r (fun x hx => ht x (by simp [hx])) hr]

theorem dw_exact {p : Char → Bool} :
    ∀ {t : List Char}, ∀ r : List Char, (∀ x ∈ t, p x = true) → HeadNot p r →
      (t ++ r).dropWhile p = r := by
  intro t
  induction t with
  | nil =>
    intro r _ hr
    cases hh : r with
    | nil => rfl
    | cons c cs =>
      have := hr c (by rw [hh]; rfl)
      simp [List.dropWhile, this]
  | cons a t ih =>
    intro r ht hr
    have ha : p a = true := ht a (by simp)
    rw [List.cons_append, List.dropWhile_cons_of_pos ha]
    exact ih r (fun x hx => ht x (by simp [hx])) hr

theorem munch1_sound {p : Char → Bool} {s t r : List Char}
    (h : munch1 p s = some (t, r)) :
    s = t ++ r ∧ t ≠ [] ∧ (∀ x ∈ t, p x = true) ∧ HeadNot p r := by
  cases s with
  | nil => simp [munch1] at h
  | cons c cs =>
    by_cases hc : p c
    · simp only [munch1, if_pos hc] at h
      obtain ⟨ht, hr⟩ := Prod.mk.injEq .. ▸ Option.some.inj h
      subst ht; subst hr
      refine ⟨by simp [List.takeWhile_append_dropWhile], by simp, ?_, dw_head p cs⟩
      intro x hx
      rcases List.mem_cons.mp hx with hx | hx
      · subst hx; exact hc
      · exact tw_mem hx
    · simp [munch1, hc] at h

theorem munch1_complete {p : Char → Bool} {t : List Char} (r : List Char)
    (htne : t ≠ []) (ht : ∀ x ∈ t, p x = true) (hr : HeadNot p r) :
    munch1 p (t ++ r) = some (t, r) := by
  cases t with
  | nil => exact absurd rfl htne
  | cons c cs =>
    have hc : p c = true := ht c (by simp)
    simp only [List.cons_append, munch1, if_pos hc]
    rw [tw_exact r (fun x hx => ht x (by simp [hx])) hr,
        dw_exact r (fun x hx => ht x (by simp [hx])) hr]

theorem ws_not_dig {c : Char} (h : isPySpace c = true) : isDig c = false := by
  simp only [isPySpace, Bool.or_eq_true, decide_eq_true_eq] at h
  rcases h with ((((h | h) | h) | h) | h) | h <;> subst h <;> decide

theorem ws_not_t {c : Char} (h : isPySpace c = true) : c ≠ 't' := by
  simp only [isPySpace, Bool.or_eq_true, decide_eq_true_eq] at h
  rcases h with ((((h | h) | h) | h) | h) | h <;> subst h <;> decide

theorem dig_not_ws {c : Char} (h : isDig c = true) : isPySpace c = false := by
  by_contra hc
  have := ws_not_dig (by simpa using Bool.not_eq_false _ ▸ hc)
  simp [this] at h

theorem headNot_ws_cons {w : List Char} {a : Char} (r : List Char)
    (hw : WsRun w) (ha : isDig a = false) : HeadNot isDig (w ++ a :: r) := by
  cases w with
  | nil => exact headNot_cons r ha
  | cons c cs =>
    exact headNot_cons _ (ws_not_dig (hw c (by simp)))

theorem headNot_append_cons {p : Char → Bool} {c : Char} (l r : List Char) (h : p c = false) :
    HeadNot p ((c :: l) ++ r) := by
  rw [List.cons_append]
  exact headNot_cons _ h

theorem headNot_ws_of_digs {d : List Char} (r : List Char) (hdn : d ≠ [])
    (hd : ∀ c ∈ d, isDig c = true) : HeadNot isPySpace (d ++ r) := by
  cases d with
  | nil => exact absurd rfl hdn
  | cons c cs => exact headNot_append_cons _ _ (dig_not_ws (hd c (by simp)))

theorem patternMatchAt_sound {s : List Char} {m : MatchRes} {r : List Char}
    (h : patternMatchAt s = some (m, r)) :
    s = m.g1 ++ m.ds ++ m.g3 ++ r ∧ Wf1 m.g1 ∧ WfD m.ds ∧ Wf3 m.g3 := by
  unfold patternMatchAt at h
  cases h1 : matchLit kStatic s with
  | none => rw [h1] at h; simp at h
  | some r1 =>
  rw [h1] at h
  simp only [Option.some_bind] at h
  cases h2 : munch1 isPySpace r1 with
  | none => rw [h2] at h; simp at h
  | some w1r2 =>
  obtain ⟨w1, r2⟩ := w1r2
  rw [h2] at h
  simp only [Option.some_bind] at h
  cases h3 : matchLit kConstexpr r2 with
  | none => rw [h3] at h; simp at h
  | some r3 =>
  rw [h3] at h
  simp only [Option.some_bind] at h
  cases h4 : munch1 isPySpace r3 with
  | none => rw [h4] at h; simp at h
  | some w2r4 =>
  obtain ⟨w2, r4⟩ := w2r4
  rw [h4] at h
  simp only [Option.some_bind] at h
  cases h5 : matchLit kUint16 r4 with
  | none => rw [h5] at h; simp at h
  | some r5 =>
  rw [h5] at h
  simp only [Option.some_bind] at h
  cases h6 : munch1 isPySpace r5 with
  | none => rw [h6] at h; simp at h
  | some w3r6 =>
  obtain ⟨w3, r6⟩ := w3r6
  rw [h6] at h
  simp only [Option.some_bind] at h
  cases h7 : matchLit kBuild r6 with
  | none => rw [h7] at h; simp at h
  | some r7 =>
  rw [h7] at h
  simp only [Option.some_bind] at h
  cases h8 : matchLit kEq (r7.dropWhile isPySpace) with
  | none => rw [h8] at h; simp at h
  | some r9 =>
  rw [h8] at h
  simp only [Option.some_bind] at h
  cases h9 : munch1 isDig (r9.dropWhile isPySpace) with
  | none => rw [h9] at h; simp at h
  | some dsr11 =>
  obtain ⟨ds, r11⟩ := dsr11
  rw [h9] at h
  simp only [Option.some_bind] at h
  cases h10 : matchLit kSemi (r11.dropWhile isPySpace) with
  | none => rw [h10] at h; simp at h
  | some r13 =>
  rw [h10] at h
  simp only [Option.some_bind] at h
  obtain ⟨hm, hr⟩ := Prod.mk.injEq .. ▸ Option.some.inj h
  subst hm
  subst hr
  obtain ⟨e2, hw1n, hw1, -⟩ := munch1_sound h2
  obtain ⟨e4, hw2n, hw2, -⟩ := munch1_sound h4
  obtain ⟨e6, hw3n, hw3, -⟩ := munch1_sound h6
  obtain ⟨e10, hdn, hd, -⟩ := munch1_sound h9
  refine ⟨?_, ?_, ⟨hdn, hd⟩, ?_⟩
  · conv_lhs =>
      rw [matchLit_sound _ _ _ h1, e2, matchLit_sound _ _ _ h3, e4,
        matchLit_sound _ _ _ h5, e6, matchLit_sound _ _ _ h7,
        (List.takeWhile_append_dropWhile isPySpace r7).symm.trans
          (by rw [matchLit_sound _ _ _ h8]),
        (List.takeWhile_append_dropWhile isPySpace r9).symm.trans
          (by rw [e10]),
        (List.takeWhile_append_dropWhile isPySpace r11).symm.trans
          (by rw [matchLit_sound _ _ _ h10])]
    simp [List.append_assoc]
  · exact ⟨w1, w2, w3, r7.takeWhile isPySpace, r9.takeWhile isPySpace,
      hw1, hw2, hw3, fun c hc => tw_mem hc, fun c hc => tw_mem hc,
      hw1n, hw2n, hw3n, rfl⟩
  · exact ⟨r11.takeWhile isPySpace, fun c hc => tw_mem hc, rfl⟩

theorem patternMatchAt_complete {w1 w2 w3 w4 w5 d w6 : List Char} (t : List Char)
    (hw1 : WsRun w1) (hw2 : WsRun w2) (hw3 : WsRun w3) (hw4 : WsRun w4) (hw5 : WsRun w5)
    (hw6 : WsRun w6) (hw1n : w1 ≠ []) (hw2n : w2 ≠ []) (hw3n : w3 ≠ [])
    (hdn : d ≠ []) (hd : ∀ c ∈ d, isDig c = true) :
    patternMatchAt (kStatic ++ (w1 ++ (kConstexpr ++ (w2 ++ (kUint16 ++ (w3 ++ (kBuild ++
        (w4 ++ (kEq ++ (w5 ++ (d ++ (w6 ++ (kSemi ++ t))))))))))))) =
      some (⟨kStatic ++ w1 ++ kConstexpr ++ w2 ++ kUint16 ++ w3 ++ kBuild ++ w4 ++ kEq ++ w5,
            d, w6 ++ kSemi⟩, t) := by
  have hc1 : HeadNot isPySpace (kConstexpr ++ (w2 ++ (kUint16 ++ (w3 ++ (kBuild ++
      (w4 ++ (kEq ++ (w5 ++ (d ++ (w6 ++ (kSemi ++ t))))))))))) :=
    headNot_append_cons _ _ (by decide)
  have hc2 : HeadNot isPySpace (kUint16 ++ (w3 ++ (kBuild ++
      (w4 ++ (kEq ++ (w5 ++ (d ++ (w6 ++ (kSemi ++ t))))))))) :=
    headNot_append_cons _ _ (by decide)
  have hc3 : HeadNot isPySpace (kBuild ++
      (w4 ++ (kEq ++ (w5 ++ (d ++ (w6 ++ (kSemi ++ t))))))) :=
    headNot_append_cons _ _ (by decide)
  have hc4 : HeadNot isPySpace (kEq ++ (w5 ++ (d ++ (w6 ++ (kSemi ++ t))))) :=
    headNot_append_cons _ _ (by decide)
  have hc5 : HeadNot isPySpace (d ++ (w6 ++ (kSemi ++ t))) :=
    headNot_ws_of_digs _ hdn hd
  have hc6 : HeadNot isDig (w6 ++ (kSemi ++ t)) :=
    headNot_ws_cons t hw6 (by decide)
  have hc7 : HeadNot isPySpace (kSemi ++ t) :=
    headNot_append_cons _ _ (by decide)
  unfold patternMatchAt
  rw [matchLit_self]
  simp only [Option.some_bind]
  rw [munch1_complete _ hw1n hw1 hc1]
  simp only [Option.some_bind]
  rw [matchLit_self]
  simp only [Option.some_bind]
  rw [munch1_complete _ hw2n hw2 hc2]
  simp only [Option.some_bind]
  rw [matchLit_self]
  simp only [Option.some_bind]
  rw [munch1_complete _ hw3n hw3 hc3]
  simp only [Option.some_bind]
  rw [matchLit_self]
  simp only [Option.some_bind]
  rw [tw_exact _ hw4 hc4, dw_exact _ hw4 hc4, matchLit_self]
  simp only [Option.some_bind]
  rw [tw_exact _ hw5 hc5, dw_exact _ hw5 hc5, munch1_complete _ hdn hd hc6]
  simp only [Option.some_bind]
  rw [tw_exact _ hw6 hc7, dw_exact _ hw6 hc7, matchLit_self]
  simp only [Option.some_bind]

theorem patternMatchAt_nil : patternMatchAt [] = none := rfl

theorem patternSearch_cons_hit {c : Char} {cs : List Char} {m : MatchRes} {r : List Char}
    (h : patternMatchAt (c :: cs) = some (m, r)) :
    patternSearch (c :: cs) = some ([], m, r) := by
  rw [patternSearch, h]

theorem patternSearch_cons_miss_hit {c : Char} {cs pre : List Char} {m : MatchRes}
    {r : List Char} (h : patternMatchAt (c :: cs) = none)
    (h2 : patternSearch cs = some (pre, m, r)) :
    patternSearch (c :: cs) = some (c :: pre, m, r) := by
  rw [patternSearch, h, h2]

theorem patternSearch_cons_miss_miss {c : Char} {cs : List Char}
    (h : patternMatchAt (c :: cs) = none) (h2 : patternSearch cs = none) :
    patternSearch (c :: cs) = none := by
  rw [patternSearch, h, h2]

theorem patternSearch_sound {s : List Char} : ∀ {pre : List Char} {m : MatchRes}
    {post : List Char}, patternSearch s = some (pre, m, post) →
    s = pre ++ (m.g1 ++ m.ds ++ m.g3 ++ post) ∧
    patternMatchAt (m.g1 ++ m.ds ++ m.g3 ++ post) = some (m, post) ∧
    ∀ p, p < pre.length → patternMatchAt (s.drop p) = none := by
  induction s with
  | nil => intro pre m post h; simp [patternSearch] at h
  | cons c cs ih =>
    intro pre m post h
    cases hm : patternMatchAt (c :: cs) with
    | some mr =>
      obtain ⟨m', r'⟩ := mr
      rw [patternSearch_cons_hit hm] at h
      simp only [Option.some.injEq, Prod.mk.injEq] at h
      obtain ⟨h1, h2, h3⟩ := h
      subst h1
      subst h2
      subst h3
      have hdec := (patternMatchAt_sound hm).1
      refine ⟨by simpa using hdec, by rw [← hdec]; exact hm, ?_⟩
      intro p hp
      simp at hp
    | none =>
      cases hs : patternSearch cs with
      | none => rw [patternSearch_cons_miss_miss hm hs] at h; simp at h
      | some x =>
        obtain ⟨pre', m', r'⟩ := x
        rw [patternSearch_cons_miss_hit hm hs] at h
        simp only [Option.some.injEq, Prod.mk.injEq] at h
        obtain ⟨h1, h2, h3⟩ := h
        subst h1
        subst h2
        subst h3
        obtain ⟨e1, e2, e3⟩ := ih hs
        refine ⟨by rw [List.cons_append, ← e1], e2, ?_⟩
        intro p hp
        cases p with
        | zero => simpa using hm
        | succ q =>
          rw [List.drop_succ_cons]
          exact e3 q (by simpa using hp)

theorem patternSearch_of : ∀ (pre : List Char) {rest : List Char} {m : MatchRes}
    {r : List Char},
    (∀ p, p < pre.length → patternMatchAt ((pre ++ rest).drop p) = none) →
    patternMatchAt rest = some (m, r) →
    patternSearch (pre ++ rest) = some (pre, m, r)
  | [], rest, m, r, _, hm => by
    cases rest with
    | nil => rw [patternMatchAt_nil] at hm; exact absurd hm (by simp)
    | cons c cs => rw [List.nil_append]; exact patternSearch_cons_hit hm
  | c :: pre', rest, m, r, hnone, hm => by
    have h0 : patternMatchAt (c :: (pre' ++ rest)) = none := by
      simpa using hnone 0 (by simp)
    have ihn : ∀ p, p < pre'.length → patternMatchAt ((pre' ++ rest).drop p) = none := by
      intro p hp
      have := hnone (p + 1) (by simp; omega)
      simpa using this
    have ih := patternSearch_of pre' ihn hm
    rw [List.cons_append]
    exact patternSearch_cons_miss_hit h0 ih

theorem exists_head? {l : List Char} (h : l ≠ []) : ∃ x, l.head? = some x := by
  cases l with
  | nil => exact absurd rfl h
  | cons c cs => exact ⟨c, rfl⟩

theorem exists_getLast? : ∀ {l : List Char}, l ≠ [] → ∃ x, l.getLast? = some x
  | [], h => absurd rfl h
  | [c], _ => ⟨c, rfl⟩
  | c :: d :: t, _ => by
    obtain ⟨x, hx⟩ := exists_getLast? (l := d :: t) (by simp)
    exact ⟨x, by rw [List.getLast?_cons_cons, hx]⟩

theorem getLast?_mem {l : List Char} {x : Char} (h : l.getLast? = some x) : x ∈ l := by
  obtain ⟨hl, rfl⟩ := List.mem_getLast?_eq_getLast (show x ∈ l.getLast? from h)
  exact List.getLast_mem hl

theorem head?_append_left {l t : List Char} (h : l ≠ []) : (l ++ t).head? = l.head? := by
  cases l with
  | nil => exact absurd rfl h
  | cons c cs => rfl

theorem headNot_dig_of_ws {w : List Char} (hw : WsRun w) : HeadNot isDig w := by
  cases w with
  | nil => exact headNot_nil _
  | cons c cs => exact headNot_cons _ (ws_not_dig (hw c (by simp)))

theorem headNot_dig_ws_append {w t : List Char} (hw : WsRun w) (ht : HeadNot isDig t) :
    HeadNot isDig (w ++ t) := by
  cases w with
  | nil => simpa using ht
  | cons c cs => exact headNot_append_cons _ _ (ws_not_dig (hw c (by simp)))

theorem chain'_nodig : ∀ {l : List Char}, (∀ c ∈ l, isDig c = false) → l.Chain' goodPair
  | [], _ => List.chain'_nil
  | c :: cs, h => by
    rw [List.chain'_cons']
    refine ⟨?_, chain'_nodig (fun x hx => h x (by simp [hx]))⟩
    intro y hy hdy
    have hy' : y ∈ cs := List.mem_of_mem_head? hy
    rw [h y (by simp [hy'])] at hdy
    cases hdy

theorem boundary_of_headNotDig {l t : List Char} (h : HeadNot isDig t) :
    ∀ x ∈ l.getLast?, ∀ y ∈ t.head?, goodPair x y := by
  intro x _ y hy hdy
  rw [h y (Option.mem_def.mp hy)] at hdy
  cases hdy

theorem chain'_goodPair_kUint16 : kUint16.Chain' goodPair := by
  refine List.chain'_cons.mpr ⟨fun h => absurd h (by decide), ?_⟩
  refine List.chain'_cons.mpr ⟨fun h => absurd h (by decide), ?_⟩
  refine List.chain'_cons.mpr ⟨fun h => absurd h (by decide), ?_⟩
  refine List.chain'_cons.mpr ⟨fun h => Or.inl rfl, ?_⟩
  refine List.chain'_cons.mpr ⟨fun h => Or.inr rfl, ?_⟩
  refine List.chain'_cons.mpr ⟨fun h => absurd h (by decide), ?_⟩
  refine List.chain'_cons.mpr ⟨fun h => absurd h (by decide), ?_⟩
  exact List.chain'_singleton 't'

theorem chain'_goodPair_wf1 {g : List Char} (h : Wf1 g) : g.Chain' goodPair := by
  obtain ⟨w1, w2, w3, w4, w5, hw1, hw2, hw3, hw4, hw5, h1n, h2n, h3n, rfl⟩ := h
  simp only [List.append_assoc]
  refine List.Chain'.append (chain'_nodig (by decide)) ?_
    (boundary_of_headNotDig
      (headNot_dig_ws_append hw1 (headNot_append_cons _ _ (by decide))))
  refine List.Chain'.append (chain'_nodig fun c hc => ws_not_dig (hw1 c hc)) ?_
    (boundary_of_headNotDig (headNot_append_cons _ _ (by decide)))
  refine List.Chain'.append (chain'_nodig (by decide)) ?_
    (boundary_of_headNotDig
      (headNot_dig_ws_append hw2 (headNot_append_cons _ _ (by decide))))
  refine List.Chain'.append (chain'_nodig fun c hc => ws_not_dig (hw2 c hc)) ?_
    (boundary_of_headNotDig (headNot_append_cons _ _ (by decide)))
  refine List.Chain'.append chain'_goodPair_kUint16 ?_
    (boundary_of_headNotDig
      (headNot_dig_ws_append hw3 (headNot_append_cons _ _ (by decide))))
  refine List.Chain'.append (chain'_nodig fun c hc => ws_not_dig (hw3 c hc)) ?_
    (boundary_of_headNotDig (headNot_append_cons _ _ (by decide)))
  refine List.Chain'.append (chain'_nodig (by decide)) ?_
    (boundary_of_headNotDig
      (headNot_dig_ws_append hw4 (headNot_append_cons _ _ (by decide))))
  refine List.Chain'.append (chain'_nodig fun c hc => ws_not_dig (hw4 c hc)) ?_
    (boundary_of_headNotDig (headNot_append_cons _ _ (by decide)))
  refine List.Chain'.append (chain'_nodig (by decide))
    (chain'_nodig fun c hc => ws_not_dig (hw5 c hc))
    (boundary_of_headNotDig (headNot_dig_of_ws hw5))

theorem wf1_ne_nil {g : List Char} (h : Wf1 g) : g ≠ [] := by
  obtain ⟨w1, w2, w3, w4, w5, _, _, _, _, _, _, _, _, rfl⟩ := h
  simp [kStatic]

theorem wf1_getLast {g : List Char} (h : Wf1 g) :
    ∀ x, g.getLast? = some x → isDig x = false ∧ x ≠ 't' := by
  obtain ⟨w1, w2, w3, w4, w5, hw1, hw2, hw3, hw4, hw5, h1n, h2n, h3n, rfl⟩ := h
  intro x hx
  cases hw5e : w5 with
  | nil =>
    subst hw5e
    rw [List.append_nil, List.getLast?_append_of_ne_nil _ (by simp [kEq])] at hx
    simp only [kEq, List.getLast?_singleton, Option.some.injEq] at hx
    subst hx
    exact ⟨by decide, by decide⟩
  | cons c cs =>
    subst hw5e
    rw [List.getLast?_append_of_ne_nil _ (by simp)] at hx
    have hmem : x ∈ c :: cs := getLast?_mem hx
    have hws : isPySpace x = true := hw5 x hmem
    exact ⟨ws_not_dig hws, ws_not_t hws⟩

theorem wf3_ne_nil {g : List Char} (h : Wf3 g) : g ≠ [] := by
  obtain ⟨w, hw, rfl⟩ := h
  simp [kSemi]

theorem wf3_nodig {g : List Char} (h : Wf3 g) : ∀ c ∈ g, isDig c = false := by
  obtain ⟨w, hw, rfl⟩ := h
  intro c hc
  rcases List.mem_append.mp hc with hc | hc
  · exact ws_not_dig (hw c hc)
  · simp only [kSemi, List.mem_singleton] at hc
    subst hc
    decide

theorem wf3_headNot_append {g : List Char} (h : Wf3 g) (x : List Char) :
    HeadNot isDig (g ++ x) := by
  obtain ⟨w, hw, rfl⟩ := h
  rw [List.append_assoc]
  exact headNot_dig_ws_append hw (headNot_append_cons _ _ (by decide))

theorem digits_split {d b D t : List Char} (hd : ∀ c ∈ d, isDig c = true)
    (hD : ∀ c ∈ D, isDig c = true) (hb : HeadNot isDig b) (ht : HeadNot isDig t)
    (h : d ++ b = D ++ t) : d = D ∧ b = t := by
  rcases List.append_eq_append_iff.mp h with ⟨k, hDk, hbk⟩ | ⟨k, hdk, htk⟩
  · cases k with
    | nil => simp at hDk hbk; exact ⟨hDk.symm, hbk⟩
    | cons c cs =>
      have hcD : c ∈ D := by rw [hDk]; simp
      have : isDig c = true := hD c hcD
      have hbh : b.head? = some c := by rw [hbk]; rfl
      rw [hb c hbh] at this
      cases this
  · cases k with
    | nil => simp at hdk htk; exact ⟨hdk, htk.symm⟩
    | cons c cs =>
      have hcd : c ∈ d := by rw [hdk]; simp
      have : isDig c = true := hd c hcd
      have hth : t.head? = some c := by rw [htk]; rfl
      rw [ht c hth] at this
      cases this

theorem matchAt_isSome_of_wf {G1 D G3 t : List Char}
    (h1 : Wf1 G1) (hD : WfD D) (h3 : Wf3 G3) :
    (patternMatchAt (G1 ++ (D ++ (G3 ++ t)))).isSome := by
  obtain ⟨w1, w2, w3, w4, w5, hw1, hw2, hw3, hw4, hw5, h1n, h2n, h3n, rfl⟩ := h1
  obtain ⟨hDn, hDd⟩ := hD
  obtain ⟨w6, hw6, rfl⟩ := h3
  have hC := patternMatchAt_complete (d := D) (t := t)
    hw1 hw2 hw3 hw4 hw5 hw6 h1n h2n h3n hDn hDd
  have heq : (kStatic ++ w1 ++ kConstexpr ++ w2 ++ kUint16 ++ w3 ++ kBuild ++ w4 ++
      kEq ++ w5) ++ (D ++ ((w6 ++ kSemi) ++ t)) =
      kStatic ++ (w1 ++ (kConstexpr ++ (w2 ++ (kUint16 ++ (w3 ++ (kBuild ++ (w4 ++
        (kEq ++ (w5 ++ (D ++ (w6 ++ (kSemi ++ t)))))))))))) := by
    simp [List.append_assoc]
  rw [heq, hC]
  rfl

theorem patternMatchAt_swap {a d e b : List Char}
    (ha : a ≠ [])
    (hlast : ∀ x, a.getLast? = some x → isDig x = false ∧ x ≠ 't')
    (hdn : d ≠ []) (hd : ∀ c ∈ d, isDig c = true)
    (hd2n : e ≠ []) (hd2 : ∀ c ∈ e, isDig c = true)
    (hb : HeadNot isDig b)
    (hsome : (patternMatchAt (a ++ (d ++ b))).isSome) :
    (patternMatchAt (a ++ (e ++ b))).isSome := by
  obtain ⟨⟨⟨G1, D, G3⟩, r⟩, hm⟩ := Option.isSome_iff_exists.mp hsome
  obtain ⟨heq, hwf1, hwfD, hwf3⟩ := patternMatchAt_sound hm
  dsimp only at heq hwf1 hwfD hwf3
  have heq' : a ++ (d ++ b) = G1 ++ (D ++ (G3 ++ r)) := by
    rw [heq]; simp [List.append_assoc]
  rcases List.append_eq_append_iff.mp heq' with ⟨m1, hG1, hdb⟩ | ⟨m1, ha1, hrest⟩
  · cases m1 with
    | nil =>
      rw [List.append_nil] at hG1
      rw [List.nil_append] at hdb
      obtain ⟨-, hbeq⟩ :=
        digits_split hd hwfD.2 hb (wf3_headNot_append hwf3 r) hdb
      rw [← hG1, hbeq]
      exact matchAt_isSome_of_wf hwf1 ⟨hd2n, hd2⟩ hwf3
    | cons c cs =>
      exfalso
      cases d with
      | nil => exact hdn rfl
      | cons dc dt =>
        rw [List.cons_append, List.cons_append] at hdb
        simp only [List.cons.injEq] at hdb
        obtain ⟨hceq, -⟩ := hdb
        have hch : (a ++ (c :: cs)).Chain' goodPair := by
          rw [← hG1]; exact chain'_goodPair_wf1 hwf1
        obtain ⟨-, -, hbd⟩ := List.chain'_append.mp hch
        obtain ⟨xa, hxa⟩ := exists_getLast? ha
        have hgp : goodPair xa c :=
          hbd xa (by simp [Option.mem_def, hxa]) c (by simp [Option.mem_def])
        have hcdig : isDig c = true := by rw [← hceq]; exact hd dc (by simp)
        rcases hgp hcdig with h' | h'
        · exact (hlast xa hxa).2 h'
        · have hxdig := (hlast xa hxa).1
          rw [h'] at hxdig
          exact absurd hxdig (by decide)
  · rcases List.append_eq_append_iff.mp hrest with ⟨k, hm1k, hk⟩ | ⟨k, hDk, hk2⟩
    · rcases List.append_eq_append_iff.mp hk with ⟨j, hkj, hj⟩ | ⟨j, hG3j, hj2⟩
      · subst hkj
        subst hm1k
        subst ha1
        have hae : (G1 ++ (D ++ (G3 ++ j))) ++ (e ++ b) =
            G1 ++ (D ++ (G3 ++ (j ++ (e ++ b)))) := by
          simp [List.append_assoc]
        rw [hae]
        exact matchAt_isSome_of_wf hwf1 hwfD hwf3
      · cases j with
        | nil =>
          rw [List.append_nil] at hG3j
          subst hG3j
          subst hm1k
          subst ha1
          have hae : (G1 ++ (D ++ G3)) ++ (e ++ b) =
              G1 ++ (D ++ (G3 ++ (e ++ b))) := by
            simp [List.append_assoc]
          rw [hae]
          exact matchAt_isSome_of_wf hwf1 hwfD hwf3
        | cons c cs =>
          exfalso
          cases d with
          | nil => exact hdn rfl
          | cons dc dt =>
            rw [List.cons_append, List.cons_append] at hj2
            simp only [List.cons.injEq] at hj2
            obtain ⟨hceq, -⟩ := hj2
            have hcg3 : c ∈ G3 := by rw [hG3j]; simp
            have hnd := wf3_nodig hwf3 c hcg3
            rw [← hceq, hd dc (by simp)] at hnd
            cases hnd
    · cases m1 with
      | nil =>
        rw [List.nil_append] at hDk
        subst hDk
        have ha1' : a = G1 := by simpa using ha1
        obtain ⟨-, hbeq⟩ :=
          digits_split hd hwfD.2 hb (wf3_headNot_append hwf3 r) hk2
        rw [ha1', hbeq]
        exact matchAt_isSome_of_wf hwf1 ⟨hd2n, hd2⟩ hwf3
      | cons c cs =>
        exfalso
        obtain ⟨xa, hxa⟩ := exists_getLast? (l := c :: cs) (by simp)
        have hxaA : a.getLast? = some xa := by
          rw [ha1, List.getLast?_append_of_ne_nil _ (by simp)]
          exact hxa
        have hxD : xa ∈ D := by
          rw [hDk]
          exact List.mem_append.mpr (Or.inl (getLast?_mem hxa))
        have hxdig := (hlast xa hxaA).1
        rw [hwfD.2 xa hxD] at hxdig
        cases hxdig

theorem matchAt_some_of_wf {G1 D G3 t : List Char}
    (h1 : Wf1 G1) (hD : WfD D) (h3 : Wf3 G3) :
    patternMatchAt (G1 ++ (D ++ (G3 ++ t))) = some (⟨G1, D, G3⟩, t) := by
  obtain ⟨w1, w2, w3, w4, w5, hw1, hw2, hw3, hw4, hw5, h1n, h2n, h3n, rfl⟩ := h1
  obtain ⟨hDn, hDd⟩ := hD
  obtain ⟨w6, hw6, rfl⟩ := h3
  have hC := patternMatchAt_complete (d := D) (t := t)
    hw1 hw2 hw3 hw4 hw5 hw6 h1n h2n h3n hDn hDd
  have heqi : (kStatic ++ w1 ++ kConstexpr ++ w2 ++ kUint16 ++ w3 ++ kBuild ++ w4 ++
      kEq ++ w5) ++ (D ++ ((w6 ++ kSemi) ++ t)) =
      kStatic ++ (w1 ++ (kConstexpr ++ (w2 ++ (kUint16 ++ (w3 ++ (kBuild ++ (w4 ++
        (kEq ++ (w5 ++ (D ++ (w6 ++ (kSemi ++ t)))))))))))) := by
    simp [List.append_assoc]
  rw [heqi, hC]

theorem patternSearch_subst {text pre : List Char} {m : MatchRes} {post d2 : List Char}
    (hs : patternSearch text = some (pre, m, post))
    (hd2n : d2 ≠ []) (hd2 : ∀ c ∈ d2, isDig c = true) :
    patternSearch (pre ++ (m.g1 ++ (d2 ++ (m.g3 ++ post)))) =
      some (pre, ⟨m.g1, d2, m.g3⟩, post) := by
  obtain ⟨hdec, hmat, hnone⟩ := patternSearch_sound hs
  obtain ⟨-, hwf1, hwfD, hwf3⟩ := patternMatchAt_sound hmat
  have hg1n : m.g1 ≠ [] := wf1_ne_nil hwf1
  refine patternSearch_of pre ?_ (matchAt_some_of_wf (t := post) hwf1 ⟨hd2n, hd2⟩ hwf3)
  intro p hp
  rw [List.drop_append_of_le_length (by omega)]
  have hold := hnone p hp
  rw [hdec, List.drop_append_of_le_length (by omega)] at hold
  have holdsh : patternMatchAt ((pre.drop p ++ m.g1) ++ (m.ds ++ (m.g3 ++ post))) = none := by
    have hsh : (pre.drop p ++ m.g1) ++ (m.ds ++ (m.g3 ++ post)) =
        pre.drop p ++ (m.g1 ++ m.ds ++ m.g3 ++ post) := by
      simp [List.append_assoc]
    rw [hsh]
    exact hold
  by_contra hne
  have hnsome : (patternMatchAt ((pre.drop p ++ m.g1) ++ (d2 ++ (m.g3 ++ post)))).isSome := by
    have hsh2 : pre.drop p ++ (m.g1 ++ (d2 ++ (m.g3 ++ post))) =
        (pre.drop p ++ m.g1) ++ (d2 ++ (m.g3 ++ post)) := by
      simp [List.append_assoc]
    rw [hsh2] at hne
    exact Option.ne_none_iff_isSome.mp hne
  have hosome := patternMatchAt_swap
    (a := pre.drop p ++ m.g1) (d := d2) (e := m.ds) (b := m.g3 ++ post)
    (fun h => hg1n (List.append_eq_nil.mp h).2)
    (fun x hx => wf1_getLast hwf1 x
      (by rw [List.getLast?_append_of_ne_nil _ hg1n] at hx; exact hx))
    hd2n hd2 hwfD.1 hwfD.2
    (wf3_headNot_append hwf3 post) hnsome
  rw [holdsh] at hosome
  simp at hosome

theorem digitChar_val {n : Nat} (h : n < 10) : (digitChar n).toNat - 48 = n := by
  interval_cases n <;> decide

theorem digitChar_isDig {n : Nat} (h : n < 10) : isDig (digitChar n) = true := by
  interval_cases n <;> decide

theorem toDecimalAux_acc : ∀ (fuel n : Nat) (acc : List Char),
    toDecimalAux fuel n acc = toDecimalAux fuel n [] ++ acc
  | 0, _, _ => rfl
  | fuel + 1, n, acc => by
    by_cases h : n < 10
    · simp [toDecimalAux, h]
    · simp only [toDecimalAux, if_neg h]
      rw [toDecimalAux_acc fuel (n / 10) (digitChar (n % 10) :: acc),
          toDecimalAux_acc fuel (n / 10) [digitChar (n % 10)]]
      simp

theorem toDecimalAux_spec : ∀ (fuel n : Nat), n < fuel →
    digitsToNat (toDecimalAux fuel n []) = n ∧ toDecimalAux fuel n [] ≠ [] ∧
    ∀ c ∈ toDecimalAux fuel n [], isDig c = true
  | 0, _, h => absurd h (by omega)
  | fuel + 1, n, h => by
    by_cases hn : n < 10
    · refine ⟨?_, by simp [toDecimalAux, hn], ?_⟩
      · simp [toDecimalAux, hn, digitsToNat, digitChar_val hn]
      · intro c hc
        simp only [toDecimalAux, if_pos hn, List.mem_singleton] at hc
        subst hc
        exact digitChar_isDig hn
    · have hdiv : n / 10 < n := Nat.div_lt_self (by omega) (by omega)
      have hlt : n / 10 < fuel := by omega
      obtain ⟨ih1, ih2, ih3⟩ := toDecimalAux_spec fuel (n / 10) hlt
      simp only [toDecimalAux, if_neg hn]
      rw [toDecimalAux_acc fuel (n / 10) [digitChar (n % 10)]]
      refine ⟨?_, by simp, ?_⟩
      · unfold digitsToNat at ih1 ⊢
        rw [List.foldl_append, ih1]
        simp only [List.foldl]
        rw [digitChar_val (Nat.mod_lt _ (by omega))]
        omega
      · intro c hc
        rcases List.mem_append.mp hc with hc | hc
        · exact ih3 c hc
        · rw [List.mem_singleton] at hc
          subst hc
          exact digitChar_isDig (Nat.mod_lt _ (by omega))

theorem toDecimal_roundtrip (n : Nat) : digitsToNat (toDecimal n) = n :=
  (toDecimalAux_spec (n + 1) n (by omega)).1

theorem toDecimal_ne_nil (n : Nat) : toDecimal n ≠ [] :=
  (toDecimalAux_spec (n + 1) n (by omega)).2.1

theorem toDecimal_digits (n : Nat) : ∀ c ∈ toDecimal n, isDig c = true :=
  (toDecimalAux_spec (n + 1) n (by omega)).2.2

theorem patternSubFirst_some {repl : MatchRes → List Char} {text pre post : List Char}
    {m : MatchRes} (hs : patternSearch text = some (pre, m, post)) :
    patternSubFirst repl text = pre ++ repl m ++ post := by
  unfold patternSubFirst
  rw [hs]

theorem increment_build_missing {fs : FS} (hv : fs.versionFile = none) :
    increment_build fs = (fs, [warnMissingFile]) := by
  unfold increment_build
  rw [hv]

theorem increment_build_nopat {fs : FS} {text : List Char}
    (hv : fs.versionFile = some text) (hs : patternSearch text = none) :
    increment_build fs = (fs, [warnNoPattern]) := by
  unfold increment_build
  rw [hv]
  show runOnText fs text = _
  unfold runOnText
  rw [hs]

theorem increment_build_found {fs : FS} {text pre post : List Char} {m : MatchRes}
    (hv : fs.versionFile = some text) (hs : patternSearch text = some (pre, m, post)) :
    increment_build fs =
      (⟨some (pre ++ (m.g1 ++ toDecimal (digitsToNat m.ds + 1) ++ m.g3) ++ post),
        some text, none⟩,
       [reportMsg (digitsToNat m.ds) (digitsToNat m.ds + 1)]) := by
  unfold increment_build
  rw [hv]
  show runOnText fs text = _
  unfold runOnText
  rw [hs]
  show ((⟨some (patternSubFirst
      (fun mm => mm.g1 ++ toDecimal (digitsToNat m.ds + 1) ++ mm.g3) text),
    some text, none⟩ : FS),
    [reportMsg (digitsToNat m.ds) (digitsToNat m.ds + 1)]) = _
  rw [patternSubFirst_some hs]

-- ## Claim theorems

/-- C1: for every input text containing a BUILD declaration matching the
recognized pattern with value N, one run of `increment_build` rewrites the
file so that the digit span of the first match reads the decimal
representation of N+1, the declaration prefix (group 1) and the
terminating `;` (inside group 3) are preserved verbatim, and every other
byte of the file (the text before and after the match) is unchanged. -/
theorem increment_rewrites_digit_span (fs : FS) (text pre : List Char) (m : MatchRes)
    (post : List Char) (hv : fs.versionFile = some text)
    (hs : patternSearch text = some (pre, m, post)) :
    text = pre ++ m.g1 ++ m.ds ++ m.g3 ++ post ∧
    (increment_build fs).1.versionFile =
      some (pre ++ (m.g1 ++ toDecimal (digitsToNat m.ds + 1) ++ m.g3) ++ post) ∧
    digitsToNat (toDecimal (digitsToNat m.ds + 1)) = digitsToNat m.ds + 1 ∧
    (∀ c ∈ toDecimal (digitsToNat m.ds + 1), isDig c = true) ∧
    ∃ w, WsRun w ∧ m.g3 = w ++ kSemi := by
  obtain ⟨hdec, hmat, -⟩ := patternSearch_sound hs
  obtain ⟨-, -, -, hwf3⟩ := patternMatchAt_sound hmat
  exact ⟨by rw [hdec]; simp [List.append_assoc],
    by rw [increment_build_found hv hs],
    toDecimal_roundtrip _, toDecimal_digits _, hwf3⟩

/-- Witness for C1, on the spec's concrete BUILD-41 file. -/
theorem increment_rewrites_digit_span_witness :
    t41 = [] ++ m41.g1 ++ m41.ds ++ m41.g3 ++ ['\n'] ∧
    (increment_build fs41).1.versionFile =
      some ([] ++ (m41.g1 ++ toDecimal (digitsToNat m41.ds + 1) ++ m41.g3) ++ ['\n']) ∧
    digitsToNat (toDecimal (digitsToNat m41.ds + 1)) = digitsToNat m41.ds + 1 ∧
    (∀ c ∈ toDecimal (digitsToNat m41.ds + 1), isDig c = true) ∧
    ∃ w, WsRun w ∧ m41.g3 = w ++ kSemi :=
  increment_rewrites_digit_span fs41 t41 [] m41 ['\n'] rfl (by decide)

/-- C2: after every successful run (pattern found, files written) the
backup slot at path `src/version.h` + `.bak` holds exactly the version
file's pre-run content, whatever the previous backup was. -/
theorem backup_preserves_pretext (fs : FS) (text pre : List Char) (m : MatchRes)
    (post : List Char) (hv : fs.versionFile = some text)
    (hs : patternSearch text = some (pre, m, post)) :
    (increment_build fs).1.backupFile = some text ∧
    backupPath = VERSION_H ++ BACKUP_SUFFIX := by
  exact ⟨by rw [increment_build_found hv hs], rfl⟩

/-- Witness for C2, with an existing stale backup that gets overwritten. -/
theorem backup_preserves_pretext_witness :
    (increment_build ⟨some t41, some tHello, none⟩).1.backupFile = some t41 ∧
    backupPath = VERSION_H ++ BACKUP_SUFFIX :=
  backup_preserves_pretext ⟨some t41, some tHello, none⟩ t41 [] m41 ['\n'] rfl (by decide)

/-- C3: when the text has two or more matches, exactly one substitution is
performed: the first match (in document order) is incremented, and the
text after it -- which contains every later match, here decomposed by a
second search -- is left byte-for-byte untouched in the output. -/
theorem only_first_match_substituted (fs : FS) (text pre : List Char) (m : MatchRes)
    (post pre2 : List Char) (m2 : MatchRes) (post2 : List Char)
    (hv : fs.versionFile = some text) (hs : patternSearch text = some (pre, m, post))
    (hs2 : patternSearch post = some (pre2, m2, post2)) :
    (increment_build fs).1.versionFile =
      some (pre ++ (m.g1 ++ toDecimal (digitsToNat m.ds + 1) ++ m.g3) ++ post) ∧
    post = pre2 ++ m2.g1 ++ m2.ds ++ m2.g3 ++ post2 := by
  obtain ⟨hdec2, -, -⟩ := patternSearch_sound hs2
  exact ⟨by rw [increment_build_found hv hs], by rw [hdec2]; simp [List.append_assoc]⟩

/-- Witness for C3, on a file with two matching lines. -/
theorem only_first_match_substituted_witness :
    (increment_build ⟨some t2m, none, none⟩).1.versionFile =
      some ([] ++ (m2a.g1 ++ toDecimal (digitsToNat m2a.ds + 1) ++ m2a.g3) ++ post2m) ∧
    post2m = ['\n'] ++ m2b.g1 ++ m2b.ds ++ m2b.g3 ++ ['\n'] :=
  only_first_match_substituted ⟨some t2m, none, none⟩ t2m [] m2a post2m ['\n'] m2b ['\n']
    rfl (by decide) (by decide)

/-- C4: when the version file does not exist, the run emits one warning
line naming the missing path and changes nothing: the filesystem state is
returned unchanged (no output, backup or temporary file is created) and
no exception or process exit occurs (the function is total and returns). -/
theorem missing_file_warns_and_noop (fs : FS) (hv : fs.versionFile = none) :
    increment_build fs = (fs, [warnMissingFile]) ∧
    ∃ u v, warnMissingFile = u ++ VERSION_H ++ v :=
  ⟨increment_build_missing hv,
   "[increment_build] warning: ".toList,
   " not found, skipping build increment".toList, by decide⟩

/-- Witness for C4, on the empty filesystem. -/
theorem missing_file_warns_and_noop_witness :
    increment_build ⟨none, none, none⟩ = (⟨none, none, none⟩, [warnMissingFile]) ∧
    ∃ u v, warnMissingFile = u ++ VERSION_H ++ v :=
  missing_file_warns_and_noop ⟨none, none, none⟩ rfl

/-- C5: when the file exists but contains no match of the BUILD pattern,
the run emits one warning line naming the file and changes nothing: the
version file is byte-for-byte unchanged and neither a backup nor a
temporary file is written. -/
theorem missing_match_warns_and_noop (fs : FS) (text : List Char)
    (hv : fs.versionFile = some text) (hs : patternSearch text = none) :
    increment_build fs = (fs, [warnNoPattern]) ∧
    ∃ u v, warnNoPattern = u ++ VERSION_H ++ v :=
  ⟨increment_build_nopat hv hs,
   "[increment_build] warning: BUILD pattern not found in ".toList,
   ", skipping".toList, by decide⟩

/-- Witness for C5, on a file with no BUILD declaration. -/
theorem missing_match_warns_and_noop_witness :
    increment_build ⟨some tHello, none, none⟩ = (⟨some tHello, none, none⟩, [warnNoPattern]) ∧
    ∃ u v, warnNoPattern = u ++ VERSION_H ++ v :=
  missing_match_warns_and_noop ⟨some tHello, none, none⟩ tHello rfl (by decide)

/-- C6: two runs in succession compose: from a file whose first match has
value N, the first run makes the first match read N+1 and the second run
makes it read N+2; no run on a matching file is a no-op (each run changes
the text). -/
theorem double_run_increments_twice (fs : FS) (text pre : List Char) (m : MatchRes)
    (post : List Char) (hv : fs.versionFile = some text)
    (hs : patternSearch text = some (pre, m, post)) :
    ∃ t1 t2,
      (increment_build fs).1.versionFile = some t1 ∧
      patternSearch t1 =
        some (pre, ⟨m.g1, toDecimal (digitsToNat m.ds + 1), m.g3⟩, post) ∧
      digitsToNat (toDecimal (digitsToNat m.ds + 1)) = digitsToNat m.ds + 1 ∧
      (increment_build (increment_build fs).1).1.versionFile = some t2 ∧
      patternSearch t2 =
        some (pre, ⟨m.g1, toDecimal (digitsToNat m.ds + 2), m.g3⟩, post) ∧
      digitsToNat (toDecimal (digitsToNat m.ds + 2)) = digitsToNat m.ds + 2 ∧
      t1 ≠ text ∧ t2 ≠ t1 := by
  obtain ⟨hdec, -, -⟩ := patternSearch_sound hs
  have h1 := increment_build_found hv hs
  have hsh1 : pre ++ (m.g1 ++ toDecimal (digitsToNat m.ds + 1) ++ m.g3) ++ post =
      pre ++ (m.g1 ++ (toDecimal (digitsToNat m.ds + 1) ++ (m.g3 ++ post))) := by
    simp [List.append_assoc]
  have hsh2 : pre ++ (m.g1 ++ toDecimal (digitsToNat m.ds + 2) ++ m.g3) ++ post =
      pre ++ (m.g1 ++ (toDecimal (digitsToNat m.ds + 2) ++ (m.g3 ++ post))) := by
    simp [List.append_assoc]
  have hs1 : patternSearch
      (pre ++ (m.g1 ++ toDecimal (digitsToNat m.ds + 1) ++ m.g3) ++ post) =
      some (pre, ⟨m.g1, toDecimal (digitsToNat m.ds + 1), m.g3⟩, post) := by
    rw [hsh1]
    exact patternSearch_subst hs (toDecimal_ne_nil _) (toDecimal_digits _)
  have hs2 : patternSearch
      (pre ++ (m.g1 ++ toDecimal (digitsToNat m.ds + 2) ++ m.g3) ++ post) =
      some (pre, ⟨m.g1, toDecimal (digitsToNat m.ds + 2), m.g3⟩, post) := by
    rw [hsh2]
    exact patternSearch_subst hs (toDecimal_ne_nil _) (toDecimal_digits _)
  refine ⟨pre ++ (m.g1 ++ toDecimal (digitsToNat m.ds + 1) ++ m.g3) ++ post,
          pre ++ (m.g1 ++ toDecimal (digitsToNat m.ds + 2) ++ m.g3) ++ post,
          by rw [h1], hs1, toDecimal_roundtrip _, ?_, hs2, toDecimal_roundtrip _, ?_, ?_⟩
  · have hv1 : (increment_build fs).1.versionFile =
        some (pre ++ (m.g1 ++ toDecimal (digitsToNat m.ds + 1) ++ m.g3) ++ post) := by
      rw [h1]
    have h2 := increment_build_found hv1 hs1
    rw [h2]
    have hmr : digitsToNat (toDecimal (digitsToNat m.ds + 1)) + 1 =
        digitsToNat m.ds + 2 := by
      rw [toDecimal_roundtrip]
    rw [hmr]
  · intro hcontra
    have h' : pre ++ (m.g1 ++ (toDecimal (digitsToNat m.ds + 1) ++ (m.g3 ++ post))) =
        pre ++ (m.g1 ++ (m.ds ++ (m.g3 ++ post))) := by
      rw [← hsh1, hcontra, hdec]
      simp [List.append_assoc]
    have h4 := List.append_cancel_right
      (List.append_cancel_left (List.append_cancel_left h'))
    have h5 := congrArg digitsToNat h4
    rw [toDecimal_roundtrip] at h5
    omega
  · intro hcontra
    have h' : pre ++ (m.g1 ++ (toDecimal (digitsToNat m.ds + 2) ++ (m.g3 ++ post))) =
        pre ++ (m.g1 ++ (toDecimal (digitsToNat m.ds + 1) ++ (m.g3 ++ post))) := by
      rw [← hsh2, hcontra]
      simp [List.append_assoc]
    have h4 := List.append_cancel_right
      (List.append_cancel_left (List.append_cancel_left h'))
    have h5 := congrArg digitsToNat h4
    rw [toDecimal_roundtrip, toDecimal_roundtrip] at h5
    omega

/-- Witness for C6, on the spec's concrete BUILD-41 file. -/
theorem double_run_increments_twice_witness :
    ∃ t1 t2,
      (increment_build fs41).1.versionFile = some t1 ∧
      patternSearch t1 =
        some ([], ⟨m41.g1, toDecimal (digitsToNat m41.ds + 1), m41.g3⟩, ['\n']) ∧
      digitsToNat (toDecimal (digitsToNat m41.ds + 1)) = digitsToNat m41.ds + 1 ∧
      (increment_build (increment_build fs41).1).1.versionFile = some t2 ∧
      patternSearch t2 =
        some ([], ⟨m41.g1, toDecimal (digitsToNat m41.ds + 2), m41.g3⟩, ['\n']) ∧
      digitsToNat (toDecimal (digitsToNat m41.ds + 2)) = digitsToNat m41.ds + 2 ∧
      t1 ≠ t41 ∧ t2 ≠ t1 :=
  double_run_increments_twice fs41 t41 [] m41 ['\n'] rfl (by decide)

/-- C7: the increment is exact unbounded integer arithmetic: the digits
are parsed in base 10 and incremented by one with no 16-bit wraparound,
so a match with value 65535 is rewritten to the full decimal string
`65536` (and reported as `65535 -> 65536`). -/
theorem increment_is_exact_at_65535 (fs : FS) (text pre : List Char) (m : MatchRes)
    (post : List Char) (hv : fs.versionFile = some text)
    (hs : patternSearch text = some (pre, m, post))
    (hN : digitsToNat m.ds = 65535) :
    (increment_build fs).1.versionFile =
      some (pre ++ (m.g1 ++ toDecimal 65536 ++ m.g3) ++ post) ∧
    toDecimal 65536 = "65536".toList ∧
    (increment_build fs).2 = [reportMsg 65535 65536] := by
  have h1 := increment_build_found hv hs
  rw [hN] at h1
  have h2 : (65535 : Nat) + 1 = 65536 := by norm_num
  rw [h2] at h1
  exact ⟨by rw [h1], by decide, by rw [h1]⟩

/-- Witness for C7, on a file holding the top 16-bit value 65535. -/
theorem increment_is_exact_at_65535_witness :
    (increment_build ⟨some t65535, none, none⟩).1.versionFile =
      some ([] ++ (m65535.g1 ++ toDecimal 65536 ++ m65535.g3) ++ ['\n']) ∧
    toDecimal 65536 = "65536".toList ∧
    (increment_build ⟨some t65535, none, none⟩).2 = [reportMsg 65535 65536] :=
  increment_is_exact_at_65535 ⟨some t65535, none, none⟩ t65535 [] m65535 ['\n']
    rfl (by decide) (by decide)

/-- C8: on the concrete input `static constexpr uint16_t BUILD = 41;\n`
one run produces the output text with 42, a backup holding the original
text, and a report line containing `41 -> 42`. -/
theorem concrete_example_41_42 :
    increment_build fs41 = (⟨some t42, some t41, none⟩, [reportMsg 41 42]) ∧
    ∃ u v, reportMsg 41 42 = u ++ "41 -> 42".toList ++ v :=
  ⟨by decide,
   "[increment_build] updated BUILD: ".toList, " (src/version.h)".toList, by decide⟩

/-- C9: the digit-span width is not preserved: on an input whose first
match reads `007` the whole span is replaced by the canonical decimal
string `8`, so leading zeros are dropped and the file shrinks by two
bytes. -/
theorem leading_zeros_not_preserved :
    increment_build ⟨some t007, none, none⟩ =
      (⟨some t8, some t007, none⟩, [reportMsg 7 8]) ∧
    t8.length + 2 = t007.length :=
  ⟨by decide, by decide⟩

/-- C10: a successful match always carries the exact token sequence
`static`, `constexpr`, `uint16_t`, `BUILD`, `=` in group 1, with at least
one whitespace character between the first four tokens; inputs whose
BUILD assignment has any other declaration shape take the
pattern-missing no-op path. -/
theorem decl_tokens_required :
    (∀ text pre m post, patternSearch text = some (pre, m, post) → Wf1 m.g1) ∧
    increment_build ⟨some tConst, none, none⟩ =
      (⟨some tConst, none, none⟩, [warnNoPattern]) ∧
    increment_build ⟨some tDefine, none, none⟩ =
      (⟨some tDefine, none, none⟩, [warnNoPattern]) := by
  refine ⟨?_, by decide, by decide⟩
  intro text pre m post hs
  exact (patternMatchAt_sound (patternSearch_sound hs).2.1).2.1

/-- Witness for C10: the wellformed shape of the concrete BUILD-41
match's group 1. -/
theorem decl_tokens_required_witness : Wf1 m41.g1 :=
  decl_tokens_required.1 t41 [] m41 ['\n'] (by decide)
